import Mathlib

/-!
# Wormhole audio visualizer: verification of the spectral feature extraction,
# tick state machine, camera parameterization and path construction

Shallow embedding of `src/main.js`.

Modeling conventions:

* A spectral or waveform sample is a byte, modeled as `ℕ` (the data model
  bounds it by 255; theorems carry that bound as a hypothesis where needed).
* A JavaScript number is modeled as `Option ℚ`: `some q` is the finite value
  `q`, `none` stands for a non-finite value (`NaN`, `±Infinity`, and the
  result of arithmetic on `undefined`).  All the arithmetic the analysed
  functions perform on *finite* values is exact in binary64 for the integer
  and dyadic operands involved, except for the final divisions (whose
  binary64 rounding is below any bound appearing in a claim) and for the one
  place where a rounding of `0.7 * L` is observable through `Math.floor`:
  that computation is modeled bit-faithfully (`roundMantissa`, `maxFFTIdx`).
* `byteFrequencyData[i]` for `i` out of range is JavaScript `undefined`;
  adding it to a running sum makes the sum `NaN`, hence `none`.
* The loop `for (let i = 0; ...)` of `getAverageLoudness` compares the
  integer loop index with `mid = frequencyBinCount / 2`, a JavaScript
  (floating point, not floored) division: the comparison `(i : ℚ) = mid`
  is exact in binary64 for every realistic length.
-/

/-- A JavaScript number as the analysed code can produce it: `some q` is the
finite rational value `q`, `none` is NaN or an infinity (or the propagation
of `undefined` through arithmetic). -/
abbrev JSNum := Option ℚ

/-- JavaScript `+` on numbers; any non-finite operand gives a non-finite result. -/
def jsAdd : JSNum → JSNum → JSNum
  | some a, some b => some (a + b)
  | _, _ => none

/-- JavaScript `-` on numbers. -/
def jsSub : JSNum → JSNum → JSNum
  | some a, some b => some (a - b)
  | _, _ => none

/-- JavaScript `*` on numbers. -/
def jsMul : JSNum → JSNum → JSNum
  | some a, some b => some (a * b)
  | _, _ => none

/-- JavaScript `/` on numbers: division of a finite value by zero yields
`Infinity` or `NaN`, i.e. a non-finite value.  (The analysed code never
divides by a non-finite value, so mapping that case to `none` is unreachable.) -/
def jsDiv : JSNum → JSNum → JSNum
  | some a, some b => if b = 0 then none else some (a / b)
  | _, _ => none

/-- JavaScript `%` for a nonnegative dividend and positive divisor
(the only use in the source is `(t * 0.5) % LOOP_TIME` with `t ≥ 0`). -/
def jsMod (a b : ℚ) : ℚ := a - b * (⌊a / b⌋ : ℤ)

/-! ## Constants of `src/main.js` (lines 8-14) -/

def TUBE_SEGMENTS : ℕ := 222
def TUBE_RADIUS : ℚ := 65 / 100
def RADIAL_SEGMENTS : ℕ := 16
def LOOP_TIME : ℕ := 5000
def HUE_ROTATE_AMOUNT : ℕ := 1
def FFT_SIZE : ℕ := 2048
def SIMPLE_BINS : ℕ := 16

/-! ## `AudioEnvironment.getAverageLoudness` (src/main.js lines 152-175)

```js
getAverageLoudness(){
  let sum = 0, activeCount = 1, bassSum;
  const mid = this.analyser.frequencyBinCount/2
  for(let i = 0; i < this.analyser.frequencyBinCount; i++){
    if(i === mid) bassSum = sum
    if(this.byteFrequencyData[i]){
      sum += this.byteFrequencyData[i]
      activeCount++
    }
  }
  if(activeCount > 1) activeCount--;
  const average = sum / this.analyser.frequencyBinCount;
  const activeAverage = sum/activeCount;
  const adjustedAverage = (average+activeAverage/2)
  const bassAvg =  bassSum / mid
  const trebAvg = (sum-bassSum) / mid
  return { average,activeAverage,adjustedAverage, bassAvg, trebAvg }
}
```

The frame is the current contents of `byteFrequencyData` (its length is
`frequencyBinCount`).  `bassSum` starts out `undefined`, modeled `none`;
the running `sum` and `activeCount` are integers, kept in `ℕ`. -/

/-- The loop body of `getAverageLoudness`: walks the frame with index `i`,
accumulating `(sum, activeCount, bassSum)`. -/
def loudnessLoop (mid : ℚ) : ℕ → List ℕ → ℕ × ℕ × Option ℕ → ℕ × ℕ × Option ℕ
  | _, [], st => st
  | i, v :: rest, (sum, activeCount, bassSum) =>
    let bassSum' := if (i : ℚ) = mid then some sum else bassSum
    if v ≠ 0 then loudnessLoop mid (i + 1) rest (sum + v, activeCount + 1, bassSum')
    else loudnessLoop mid (i + 1) rest (sum, activeCount, bassSum')

/-- The state after the loop of `getAverageLoudness`: `(sum, activeCount, bassSum)`
before the final `if (activeCount > 1) activeCount--`. -/
def loudnessRaw (frame : List ℕ) : ℕ × ℕ × Option ℕ :=
  loudnessLoop ((frame.length : ℚ) / 2) 0 frame (0, 1, none)

/-- `activeCount` after `if(activeCount > 1) activeCount--`. -/
def activeCount (frame : List ℕ) : ℕ :=
  if 1 < (loudnessRaw frame).2.1 then (loudnessRaw frame).2.1 - 1 else (loudnessRaw frame).2.1

/-- The record returned by `getAverageLoudness` (field names as in the source). -/
structure LoudnessMetrics where
  average : JSNum
  activeAverage : JSNum
  adjustedAverage : JSNum
  bassAvg : JSNum
  trebAvg : JSNum
deriving DecidableEq, Repr

def getAverageLoudness (frame : List ℕ) : LoudnessMetrics :=
  let sum := (loudnessRaw frame).1
  let bassSum := (loudnessRaw frame).2.2
  let mid : ℚ := (frame.length : ℚ) / 2
  let average := jsDiv (some (sum : ℚ)) (some (frame.length : ℚ))
  let activeAverage := jsDiv (some (sum : ℚ)) (some (activeCount frame : ℚ))
  let adjustedAverage := jsAdd average (jsDiv activeAverage (some 2))
  { average := average
    activeAverage := activeAverage
    adjustedAverage := adjustedAverage
    bassAvg := jsDiv (Option.map (fun b : ℕ => (b : ℚ)) bassSum) (some mid)
    trebAvg := jsDiv (jsSub (some (sum : ℚ)) (Option.map (fun b : ℕ => (b : ℚ)) bassSum))
      (some mid) }

/-! ## `AudioEnvironment.getSimplifiedValues` (src/main.js lines 178-193)

```js
getSimplifiedValues(binsArray){
  const nBins = binsArray.length
  const maxFFTIdx = Math.floor(0.7*this.analyser.frequencyBinCount)
  const fftBinsPerBin =  Math.floor(maxFFTIdx / nBins)
  let f = 0 //current fft idx
  for(let i = 0; i < nBins;i++){
    let sum = 0
    for(let j = 0; j < fftBinsPerBin;j++){
      sum += this.byteFrequencyData[f]
      f++
    }
    binsArray[i] = (sum/fftBinsPerBin)/255
  }
}
```

`0.7 * frequencyBinCount` is computed in binary64, where the literal `0.7`
is the double `6305039478318694 / 2 ^ 53`; the product is rounded to 53
significant bits with ties to even before `Math.floor` truncates it.  For
most lengths this agrees with `⌊7 L / 10⌋`, but not for all (`L = 90` gives
62, not 63), so the rounding is modeled bit-faithfully below. -/

/-- Number of binary digits of `m` (0 for 0), by fuel recursion so that the
kernel can evaluate it.  `bitLen_le_iff` gives its characterization. -/
def sizeAux : ℕ → ℕ → ℕ
  | 0, _ => 0
  | fuel + 1, m => if m = 0 then 0 else sizeAux fuel (m / 2) + 1

def bitLen (m : ℕ) : ℕ := sizeAux m m

/-- Round the integer `m` to 53 significant binary digits, ties to even:
the significand rounding binary64 performs on a product of this magnitude. -/
def roundMantissa (m : ℕ) : ℕ :=
  if bitLen m ≤ 53 then m
  else
    let s := bitLen m - 53
    let q := m / 2 ^ s
    let r := m % 2 ^ s
    let half := 2 ^ (s - 1)
    if half < r ∨ (r = half ∧ q % 2 = 1) then (q + 1) * 2 ^ s else q * 2 ^ s

/-- `Math.floor(0.7 * L)` computed in binary64: `0.7` is the double
`6305039478318694 / 2 ^ 53`, the exact product `6305039478318694 * L / 2 ^ 53`
is rounded to 53 significant bits (ties to even), then floored. -/
def maxFFTIdx (L : ℕ) : ℕ := roundMantissa (6305039478318694 * L) / 2 ^ 53

/-- `fftBinsPerBin = Math.floor(maxFFTIdx / nBins)`. -/
def fftBinsPerBin (frame : List ℕ) (nBins : ℕ) : ℕ := maxFFTIdx frame.length / nBins

/-- The inner loop of `getSimplifiedValues`: `fftBinsPerBin` iterations of
`sum += byteFrequencyData[f]; f++` starting from sum accumulator `sum`.
An out-of-range read yields `undefined`, which turns the sum into NaN. -/
def innerLoop (frame : List ℕ) : ℕ → ℕ → JSNum → JSNum
  | _, 0, sum => sum
  | f, j + 1, sum =>
    innerLoop frame (f + 1) j (jsAdd sum (Option.map (fun v : ℕ => (v : ℚ)) frame[f]?))

/-- The outer loop of `getSimplifiedValues`: for each of `n` remaining buckets,
average `b` consecutive samples starting at the running index `f` and divide
by 255. -/
def outerLoop (frame : List ℕ) (b : ℕ) : ℕ → ℕ → List JSNum
  | _, 0 => []
  | f, n + 1 =>
    jsDiv (jsDiv (innerLoop frame f b (some 0)) (some (b : ℚ))) (some 255)
      :: outerLoop frame b (f + b) n

/-- `getSimplifiedValues`, returning the `nBins` values written into
`binsArray` (the caller-owned output buffer, modeled by its length). -/
def getSimplifiedValues (frame : List ℕ) (nBins : ℕ) : List JSNum :=
  outerLoop frame (fftBinsPerBin frame nBins) 0 nBins

/-- The written value `(sum/fftBinsPerBin)/255` lies in the closed unit
interval (false for a non-finite value). -/
def inUnitInterval : JSNum → Prop
  | some q => 0 ≤ q ∧ q ≤ 1
  | none => False

instance : DecidablePred inUnitInterval := fun v => by
  unfold inUnitInterval
  cases v <;> exact inferInstance

/-! ## The animation tick state and camera parameter
(src/main.js lines 291-346) -/

/-- `let t = 65; //"tube" tick` (line 301). -/
def tubeTickInit : ℕ := 65

/-- One tick's update of `t`: `t++` (line 332) followed by
`if(t > 1000) t = 144` (line 336). -/
def tickStep (t : ℕ) : ℕ := if 1000 < t + 1 then 144 else t + 1

/-- `updateCamera`: `time = t * 0.5; p = (time % LOOP_TIME) / LOOP_TIME`
(lines 292-293). -/
def cameraP (t : ℕ) : ℚ := jsMod ((t : ℚ) * (1 / 2)) (LOOP_TIME : ℚ) / (LOOP_TIME : ℚ)

/-- `const next = (p+0.03)` (line 294). -/
def cameraNext (t : ℕ) : ℚ := cameraP t + 3 / 100

/-- `worldEnv.bloomPass.strength = (adjustedAverage/255) * 150` (line 320),
as a function of the current frame. -/
def bloomStrength (frame : List ℕ) : JSNum :=
  jsMul (jsDiv (getAverageLoudness frame).adjustedAverage (some 255)) (some 150)

/-! ## Microphone acquisition and visualizer startup
(src/main.js lines 16-27, 116-134, 235-244) -/

/-- An audio capture stream (opaque to the analysed code). -/
structure MediaStream where
  deviceId : ℕ
deriving DecidableEq

/-- A console log event. -/
inductive LogEvent where
  | warn
  | error
deriving DecidableEq

/-- `getMicrophone`: on success resolves with the stream; when `getUserMedia`
rejects (permission denied, no device) it logs one `console.warn` and one
`console.error` and resolves `null`.  The platform outcome is the parameter. -/
def getMicrophone (granted : Option MediaStream) : Option MediaStream × List LogEvent :=
  match granted with
  | some s => (some s, [])
  | none => (none, [LogEvent.warn, LogEvent.error])

/-- The singleton audio state built by `AudioEnvironment.use` on success:
context, analyser (with `fftSize = FFT_SIZE`) and stream source. -/
structure AudioEnvironment where
  stream : MediaStream
  fftSize : ℕ
deriving DecidableEq

/-- `AudioEnvironment.use`: with no shared instance yet, requests the
microphone exactly once; a `null` stream propagates to a `null` result.
Returns the environment (or `null`), the console log events, and the number
of `getUserMedia` requests made. -/
def AudioEnvironment.use (shared : Option AudioEnvironment) (granted : Option MediaStream) :
    Option AudioEnvironment × List LogEvent × ℕ :=
  match shared with
  | some env => (some env, [], 0)
  | none =>
    match getMicrophone granted with
    | (none, logs) => (none, logs, 1)
    | (some s, logs) => (some { stream := s, fftSize := FFT_SIZE }, logs, 1)

/-- The value `initializeVisualizer` produces on success: the scene is built
and the `animate` loop is constructed around the audio environment. -/
structure Visualizer where
  env : AudioEnvironment
deriving DecidableEq

/-- `initializeVisualizer` (called with the shared instance still `null`):
`const audioEnv = await AudioEnvironment.use(); if(!audioEnv) return
console.error(...)` — on failure it logs one more `console.error` and
returns without constructing the scene or the animate loop. -/
def initializeVisualizer (granted : Option MediaStream) :
    Option Visualizer × List LogEvent × ℕ :=
  match AudioEnvironment.use none granted with
  | (none, logs, r) => (none, logs ++ [LogEvent.error], r)
  | (some env, logs, r) => (some { env := env }, logs, r)

/-! ## Helper lemmas: the loudness loop -/

/-- The loop's final `sum` is the sum of the frame (skipping zero samples does
not change the sum). -/
theorem loudnessLoop_sum (mid : ℚ) :
    ∀ (l : List ℕ) (i sum ac : ℕ) (b : Option ℕ),
      (loudnessLoop mid i l (sum, ac, b)).1 = sum + l.sum
  | [], _, _, _, _ => by simp [loudnessLoop]
  | v :: rest, i, sum, ac, b => by
    by_cases hv : v = 0
    · subst hv
      simpa [loudnessLoop] using loudnessLoop_sum mid rest (i + 1) sum ac _
    · have := loudnessLoop_sum mid rest (i + 1) (sum + v) (ac + 1)
        (if (i : ℚ) = mid then some sum else b)
      simp only [loudnessLoop, if_pos hv, List.sum_cons] at this ⊢
      omega

/-- The loop never decreases `activeCount`. -/
theorem loudnessLoop_ac_le (mid : ℚ) :
    ∀ (l : List ℕ) (i sum ac : ℕ) (b : Option ℕ),
      ac ≤ (loudnessLoop mid i l (sum, ac, b)).2.1
  | [], _, _, _, _ => by simp [loudnessLoop]
  | v :: rest, i, sum, ac, b => by
    by_cases hv : v = 0
    · subst hv
      simpa [loudnessLoop] using loudnessLoop_ac_le mid rest (i + 1) sum ac _
    · have := loudnessLoop_ac_le mid rest (i + 1) (sum + v) (ac + 1)
        (if (i : ℚ) = mid then some sum else b)
      simp only [loudnessLoop, if_pos hv] at this ⊢
      omega

/-- On an all-zero frame the loop changes neither `sum` nor `activeCount`. -/
theorem loudnessLoop_zero (mid : ℚ) :
    ∀ (l : List ℕ), (∀ x ∈ l, x = 0) → ∀ (i sum ac : ℕ) (b : Option ℕ),
      (loudnessLoop mid i l (sum, ac, b)).1 = sum ∧
        (loudnessLoop mid i l (sum, ac, b)).2.1 = ac
  | [], _, _, _, _, _ => by simp [loudnessLoop]
  | v :: rest, h, i, sum, ac, b => by
    have hv : v = 0 := h v (by simp)
    subst hv
    simpa [loudnessLoop] using
      loudnessLoop_zero mid rest (fun x hx => h x (by simp [hx])) (i + 1) sum ac _

/-- Once `bassSum` has been assigned it stays assigned. -/
theorem loudnessLoop_bass_stays (mid : ℚ) :
    ∀ (l : List ℕ) (i sum ac : ℕ) (b : Option ℕ), b.isSome →
      (loudnessLoop mid i l (sum, ac, b)).2.2.isSome
  | [], _, _, _, _, hb => by simpa [loudnessLoop] using hb
  | v :: rest, i, sum, ac, b, hb => by
    have hb' : (if (i : ℚ) = mid then some sum else b).isSome := by
      split
      · rfl
      · exact hb
    by_cases hv : v = 0
    · subst hv
      simpa [loudnessLoop] using loudnessLoop_bass_stays mid rest (i + 1) sum ac _ hb'
    · simpa [loudnessLoop, hv] using
        loudnessLoop_bass_stays mid rest (i + 1) (sum + v) (ac + 1) _ hb'

/-- If the loop's index range covers the natural number `m` and `mid = m`,
then `bassSum` gets assigned. -/
theorem loudnessLoop_bass_set (m : ℕ) :
    ∀ (l : List ℕ) (i : ℕ), i ≤ m → m < i + l.length →
      ∀ (sum ac : ℕ) (b : Option ℕ),
        (loudnessLoop ((m : ℕ) : ℚ) i l (sum, ac, b)).2.2.isSome
  | [], i, hi, hlt, _, _, _ => by simp at hlt; omega
  | v :: rest, i, hi, hlt, sum, ac, b => by
    by_cases him : i = m
    · subst him
      have hset : (if (i : ℚ) = ((i : ℕ) : ℚ) then some sum else b) = some sum := by simp
      by_cases hv : v = 0
      · subst hv
        simp only [loudnessLoop, hset]
        exact loudnessLoop_bass_stays _ rest (i + 1) sum ac _ rfl
      · simp only [loudnessLoop, if_pos hv, hset]
        exact loudnessLoop_bass_stays _ rest (i + 1) (sum + v) (ac + 1) _ rfl
    · have hi' : i + 1 ≤ m := by omega
      have hlt' : m < (i + 1) + rest.length := by
        simp only [List.length_cons] at hlt
        omega
      by_cases hv : v = 0
      · subst hv
        simpa [loudnessLoop] using
          loudnessLoop_bass_set m rest (i + 1) hi' hlt' sum ac _
      · simpa [loudnessLoop, hv] using
          loudnessLoop_bass_set m rest (i + 1) hi' hlt' (sum + v) (ac + 1) _

/-- Sum and active count of the loop over a constant nonzero frame
(any `mid`, including the non-integer `mid` of an odd-length frame). -/
theorem loudnessLoop_replicate_sum_ac (mid : ℚ) (v : ℕ) (hv : v ≠ 0) :
    ∀ (n i sum ac : ℕ) (b : Option ℕ),
      (loudnessLoop mid i (List.replicate n v) (sum, ac, b)).1 = sum + n * v ∧
        (loudnessLoop mid i (List.replicate n v) (sum, ac, b)).2.1 = ac + n
  | 0, _, _, _, _ => by simp [loudnessLoop]
  | n + 1, i, sum, ac, b => by
    have := loudnessLoop_replicate_sum_ac mid v hv n (i + 1) (sum + v) (ac + 1)
      (if (i : ℚ) = mid then some sum else b)
    simp only [List.replicate_succ, loudnessLoop, if_pos hv] at this ⊢
    constructor
    · rw [this.1]; ring
    · rw [this.2]; ring

/-- Full closed form of the loop over a constant nonzero frame when `mid`
is the natural number `m`: `bassSum` records the partial sum at index `m`. -/
theorem loudnessLoop_replicate (m v : ℕ) (hv : v ≠ 0) :
    ∀ (n i sum ac : ℕ) (b : Option ℕ),
      loudnessLoop ((m : ℕ) : ℚ) i (List.replicate n v) (sum, ac, b) =
        (sum + n * v, ac + n,
          if i ≤ m ∧ m < i + n then some (sum + (m - i) * v) else b)
  | 0, i, sum, ac, b => by
    simp only [List.replicate_zero, loudnessLoop]
    have h : ¬(i ≤ m ∧ m < i + 0) := by omega
    simp only [Nat.add_zero] at h ⊢
    simp [h]
  | n + 1, i, sum, ac, b => by
    have ih := loudnessLoop_replicate m v hv n (i + 1) (sum + v) (ac + 1)
      (if (i : ℚ) = ((m : ℕ) : ℚ) then some sum else b)
    simp only [List.replicate_succ, loudnessLoop, if_pos hv, ih]
    refine Prod.ext (by ring) (Prod.ext (by ring) ?_)
    simp only [Nat.cast_inj]
    by_cases him : i = m
    · subst him
      have h1 : ¬(i + 1 ≤ i ∧ i < i + 1 + n) := by omega
      have h2 : i ≤ i ∧ i < i + (n + 1) := by omega
      simp [h1, h2]
    · by_cases hc : i + 1 ≤ m ∧ m < i + 1 + n
      · have h2 : i ≤ m ∧ m < i + (n + 1) := by omega
        have hmv : (m - i) * v = v + (m - (i + 1)) * v := by
          have : m - i = (m - (i + 1)) + 1 := by omega
          rw [this, Nat.succ_mul]
          ring
        simp only [if_pos hc, if_pos h2, him]
        rw [hmv]
        congr 1
        ring
      · have h2 : ¬(i ≤ m ∧ m < i + (n + 1)) := by omega
        simp [hc, h2, him]

/-! ## Helper lemmas: the loudness metrics -/

/-- `activeCount` is at least 1 for every frame: it is seeded at 1 and only
decremented when greater than 1, so `sum / activeCount` never divides by 0. -/
theorem one_le_activeCount (frame : List ℕ) : 1 ≤ activeCount frame := by
  have h := loudnessLoop_ac_le ((frame.length : ℚ) / 2) frame 0 0 1 none
  unfold activeCount loudnessRaw
  split
  · omega
  · exact h

/-- `activeAverage` is always a finite value: the guarded `activeCount` is nonzero. -/
theorem activeAverage_isSome (frame : List ℕ) :
    (getAverageLoudness frame).activeAverage.isSome := by
  have h := one_le_activeCount frame
  have hne : ((activeCount frame : ℚ)) ≠ 0 := by
    have : activeCount frame ≠ 0 := by omega
    exact_mod_cast this
  simp [getAverageLoudness, jsDiv, hne]


/-- Unfolding of the `average` field. -/
theorem getAverageLoudness_average (frame : List ℕ) :
    (getAverageLoudness frame).average =
      jsDiv (some ((loudnessRaw frame).1 : ℚ)) (some (frame.length : ℚ)) := rfl

/-- Unfolding of the `activeAverage` field. -/
theorem getAverageLoudness_activeAverage (frame : List ℕ) :
    (getAverageLoudness frame).activeAverage =
      jsDiv (some ((loudnessRaw frame).1 : ℚ)) (some (activeCount frame : ℚ)) := rfl

/-- Unfolding of the `adjustedAverage` field. -/
theorem getAverageLoudness_adjustedAverage (frame : List ℕ) :
    (getAverageLoudness frame).adjustedAverage =
      jsAdd (getAverageLoudness frame).average
        (jsDiv (getAverageLoudness frame).activeAverage (some 2)) := rfl

/-- Unfolding of the `bassAvg` field. -/
theorem getAverageLoudness_bassAvg (frame : List ℕ) :
    (getAverageLoudness frame).bassAvg =
      jsDiv (Option.map (fun b : ℕ => (b : ℚ)) (loudnessRaw frame).2.2)
        (some ((frame.length : ℚ) / 2)) := rfl

/-- Unfolding of the `trebAvg` field. -/
theorem getAverageLoudness_trebAvg (frame : List ℕ) :
    (getAverageLoudness frame).trebAvg =
      jsDiv (jsSub (some ((loudnessRaw frame).1 : ℚ))
          (Option.map (fun b : ℕ => (b : ℚ)) (loudnessRaw frame).2.2))
        (some ((frame.length : ℚ) / 2)) := rfl

/-- Loudness metrics of an all-zero frame of length at least 2. -/
theorem getAverageLoudness_zero (frame : List ℕ) (hL : 2 ≤ frame.length)
    (hz : ∀ x ∈ frame, x = 0) :
    (getAverageLoudness frame).average = some 0 ∧
      (getAverageLoudness frame).activeAverage = some 0 ∧
      (getAverageLoudness frame).adjustedAverage = some 0 := by
  have h0 := loudnessLoop_zero ((frame.length : ℚ) / 2) frame hz 0 0 1 none
  have hsum : (loudnessRaw frame).1 = 0 := h0.1
  have hac : (loudnessRaw frame).2.1 = 1 := h0.2
  have hacount : activeCount frame = 1 := by
    unfold activeCount
    rw [hac]
    norm_num
  have hLne : ((frame.length : ℚ)) ≠ 0 := by
    have h : frame.length ≠ 0 := by omega
    exact_mod_cast h
  have h1 : (getAverageLoudness frame).average = some 0 := by
    rw [getAverageLoudness_average, hsum]
    simp [jsDiv, hLne]
  have h2 : (getAverageLoudness frame).activeAverage = some 0 := by
    rw [getAverageLoudness_activeAverage, hsum, hacount]
    norm_num [jsDiv]
  refine ⟨h1, h2, ?_⟩
  rw [getAverageLoudness_adjustedAverage, h1, h2]
  norm_num [jsAdd, jsDiv]

/-- Loudness metrics of a constant frame `replicate L v` with `v > 0`,
`L ≥ 2`; the bass/treble averages are finite exactly when `L` is even. -/
theorem getAverageLoudness_const (L v : ℕ) (hL : 2 ≤ L) (hv : 0 < v) :
    (getAverageLoudness (List.replicate L v)).average = some ((v : ℚ)) ∧
      (getAverageLoudness (List.replicate L v)).activeAverage = some ((v : ℚ)) ∧
      (getAverageLoudness (List.replicate L v)).adjustedAverage =
        some (3 * (v : ℚ) / 2) ∧
      (L % 2 = 0 →
        (getAverageLoudness (List.replicate L v)).bassAvg = some ((v : ℚ)) ∧
          (getAverageLoudness (List.replicate L v)).trebAvg = some ((v : ℚ))) := by
  have hvne : v ≠ 0 := by omega
  have hlen : (List.replicate L v).length = L := List.length_replicate L v
  have hsumac := loudnessLoop_replicate_sum_ac (((List.replicate L v).length : ℚ) / 2)
    v hvne L 0 0 1 none
  have hsum : (loudnessRaw (List.replicate L v)).1 = L * v := by
    have h := hsumac.1
    unfold loudnessRaw
    omega
  have hac : (loudnessRaw (List.replicate L v)).2.1 = 1 + L := by
    have h := hsumac.2
    unfold loudnessRaw
    omega
  have hacount : activeCount (List.replicate L v) = L := by
    unfold activeCount
    rw [hac]
    have h : 1 < 1 + L := by omega
    simp [h]
  have hLneQ : ((L : ℚ)) ≠ 0 := by
    have h : L ≠ 0 := by omega
    exact_mod_cast h
  have h1 : (getAverageLoudness (List.replicate L v)).average = some ((v : ℚ)) := by
    rw [getAverageLoudness_average, hsum, hlen]
    rw [jsDiv, if_neg hLneQ]
    congr 1
    push_cast
    exact mul_div_cancel_left₀ _ hLneQ
  have h2 : (getAverageLoudness (List.replicate L v)).activeAverage = some ((v : ℚ)) := by
    rw [getAverageLoudness_activeAverage, hsum, hacount]
    rw [jsDiv, if_neg hLneQ]
    congr 1
    push_cast
    exact mul_div_cancel_left₀ _ hLneQ
  have h3 : (getAverageLoudness (List.replicate L v)).adjustedAverage =
      some (3 * (v : ℚ) / 2) := by
    rw [getAverageLoudness_adjustedAverage, h1, h2]
    rw [jsDiv, if_neg (by norm_num : (2 : ℚ) ≠ 0), jsAdd]
    congr 1
    ring
  refine ⟨h1, h2, h3, fun heven => ?_⟩
  obtain ⟨m, hm⟩ : ∃ m, L = 2 * m := ⟨L / 2, by omega⟩
  have hmpos : 1 ≤ m := by omega
  have hmid : (((List.replicate L v).length : ℚ) / 2) = ((m : ℕ) : ℚ) := by
    rw [hlen, hm]
    push_cast
    ring
  have hbass : (loudnessRaw (List.replicate L v)).2.2 = some (m * v) := by
    unfold loudnessRaw
    rw [hmid, loudnessLoop_replicate m v hvne L 0 0 1 none]
    have hc : 0 ≤ m ∧ m < 0 + L := by omega
    rw [if_pos hc]
    simp
  have hmneQ : (((m : ℕ) : ℚ)) ≠ 0 := by
    have h : m ≠ 0 := by omega
    exact_mod_cast h
  constructor
  · rw [getAverageLoudness_bassAvg, hbass, hmid, Option.map_some']
    rw [jsDiv, if_neg hmneQ]
    congr 1
    push_cast
    exact mul_div_cancel_left₀ _ hmneQ
  · rw [getAverageLoudness_trebAvg, hbass, hsum, hmid, Option.map_some', jsSub]
    rw [jsDiv, if_neg hmneQ]
    congr 1
    rw [hm]
    push_cast
    field_simp
    ring

/-! ## Helper lemmas: bit length and the binary64 floor -/

/-- Characterization of `sizeAux` given enough fuel. -/
theorem sizeAux_le_iff : ∀ (fuel m n : ℕ), m ≤ fuel → (sizeAux fuel m ≤ n ↔ m < 2 ^ n)
  | fuel, 0, n, _ => by
    cases fuel <;> simp [sizeAux, Nat.pos_pow_of_pos n (by norm_num : 0 < 2)]
  | 0, m + 1, n, h => by omega
  | fuel + 1, m + 1, n, h => by
    simp only [sizeAux, if_neg (Nat.succ_ne_zero m)]
    cases n with
    | zero =>
      simp only [Nat.le_zero, pow_zero]
      constructor
      · omega
      · omega
    | succ j =>
      have hrec := sizeAux_le_iff fuel ((m + 1) / 2) j (by omega)
      constructor
      · intro hle
        have h1 : (m + 1) / 2 < 2 ^ j := hrec.1 (by omega)
        have := Nat.lt_of_div_lt_div (a := m + 1) (b := 2 ^ (j + 1)) (c := 2)
        rw [pow_succ]
        omega
      · intro hlt
        have h1 : (m + 1) / 2 < 2 ^ j := by
          rw [Nat.div_lt_iff_lt_mul (by norm_num : 0 < 2)]
          rw [pow_succ] at hlt
          omega
        have := hrec.2 h1
        omega

/-- `bitLen m ≤ n` iff `m < 2 ^ n`. -/
theorem bitLen_le_iff (m n : ℕ) : bitLen m ≤ n ↔ m < 2 ^ n :=
  sizeAux_le_iff m m n le_rfl

/-- `n < bitLen m` iff `2 ^ n ≤ m`. -/
theorem lt_bitLen_iff (m n : ℕ) : n < bitLen m ↔ 2 ^ n ≤ m := by
  constructor
  · intro h
    by_contra hc
    have := (bitLen_le_iff m n).2 (by omega)
    omega
  · intro h
    by_contra hc
    have := (bitLen_le_iff m n).1 (by omega)
    omega

/-- Rounding to 53 significant bits overshoots by at most half an ulp, which
is at most `m / 2 ^ 53`. -/
theorem roundMantissa_le (m : ℕ) : roundMantissa m ≤ m + m / 2 ^ 53 := by
  unfold roundMantissa
  split
  · exact Nat.le_add_right m _
  · rename_i h
    have h53 : 53 < bitLen m := by omega
    have hpow : 2 ^ (bitLen m - 1) ≤ m := (lt_bitLen_iff m (bitLen m - 1)).1 (by omega)
    have hsum : (bitLen m - 53 - 1) + 53 = bitLen m - 1 := by omega
    have hhalfm : 2 ^ (bitLen m - 53 - 1) * 2 ^ 53 ≤ m := by
      rw [← pow_add, hsum]
      exact hpow
    have hhalf : 2 ^ (bitLen m - 53 - 1) ≤ m / 2 ^ 53 :=
      (Nat.le_div_iff_mul_le (by positivity)).2 hhalfm
    have hdm : m / 2 ^ (bitLen m - 53) * 2 ^ (bitLen m - 53) + m % 2 ^ (bitLen m - 53) = m :=
      Nat.div_add_mod' m (2 ^ (bitLen m - 53))
    have hP : 2 ^ (bitLen m - 53) = 2 ^ (bitLen m - 53 - 1) * 2 := by
      rw [← pow_succ]
      congr 1
      omega
    dsimp only
    split
    · rename_i hinc
      have hr : 2 ^ (bitLen m - 53 - 1) ≤ m % 2 ^ (bitLen m - 53) := by
        rcases hinc with h' | h'
        · omega
        · omega
      have hexp : (m / 2 ^ (bitLen m - 53) + 1) * 2 ^ (bitLen m - 53)
          = m / 2 ^ (bitLen m - 53) * 2 ^ (bitLen m - 53) + 2 ^ (bitLen m - 53) := by
        ring
      rw [hexp]
      omega
    · have hle : m / 2 ^ (bitLen m - 53) * 2 ^ (bitLen m - 53) ≤ m :=
        Nat.div_mul_le_self _ _
      omega

/-- The modeled `Math.floor(0.7 * L)` never exceeds the frame length, so the
simplification loop reads within the first 70% of the frame. -/
theorem maxFFTIdx_le (L : ℕ) : maxFFTIdx L ≤ L := by
  unfold maxFFTIdx
  have hd : 6305039478318694 * L / 2 ^ 53 ≤ L := by
    have h1 : 6305039478318694 * L ≤ 2 ^ 53 * L :=
      Nat.mul_le_mul_right L (by norm_num)
    calc 6305039478318694 * L / 2 ^ 53 ≤ 2 ^ 53 * L / 2 ^ 53 := Nat.div_le_div_right h1
      _ = L := Nat.mul_div_cancel_left L (by positivity)
  have h3 : roundMantissa (6305039478318694 * L) ≤ 2 ^ 53 * L := by
    have h1 := roundMantissa_le (6305039478318694 * L)
    have h2 : 6305039478318694 * L + L ≤ 2 ^ 53 * L := by
      have : 6305039478318695 * L ≤ 2 ^ 53 * L := Nat.mul_le_mul_right L (by norm_num)
      omega
    omega
  calc roundMantissa (6305039478318694 * L) / 2 ^ 53 ≤ 2 ^ 53 * L / 2 ^ 53 :=
      Nat.div_le_div_right h3
    _ = L := Nat.mul_div_cancel_left L (by positivity)

/-! ## Helper lemmas: the simplification loops -/

/-- The inner loop, reading within the frame, adds the plain sum of the `j`
consecutive samples from index `f` to its accumulator. -/
theorem innerLoop_eq (frame : List ℕ) :
    ∀ (j f : ℕ) (q : ℚ), f + j ≤ frame.length →
      innerLoop frame f j (some q) = some (q + (((frame.drop f).take j).sum : ℚ))
  | 0, f, q, _ => by simp [innerLoop]
  | j + 1, f, q, h => by
    have hf : f < frame.length := by omega
    have hget : frame[f]? = some frame[f] := List.getElem?_eq_getElem hf
    simp only [innerLoop, hget, Option.map_some', jsAdd]
    rw [innerLoop_eq frame j (f + 1) (q + frame[f]) (by omega)]
    rw [List.drop_eq_getElem_cons hf, List.take_succ_cons, List.sum_cons]
    congr 1
    push_cast
    ring

/-- Byte-bounded samples give a byte-bounded bucket sum. -/
theorem take_drop_sum_le (frame : List ℕ) (hbyte : ∀ x ∈ frame, x ≤ 255) (f j : ℕ) :
    ((frame.drop f).take j).sum ≤ 255 * j := by
  have hmem : ∀ x ∈ (frame.drop f).take j, x ≤ 255 := fun x hx =>
    hbyte x (List.mem_of_mem_drop (List.mem_of_mem_take hx))
  have hlen : ((frame.drop f).take j).length ≤ j := by
    simp [List.length_take]
  calc ((frame.drop f).take j).sum ≤ ((frame.drop f).take j).length • 255 :=
      List.sum_le_card_nsmul _ _ hmem
    _ = ((frame.drop f).take j).length * 255 := by rw [smul_eq_mul]
    _ ≤ j * 255 := Nat.mul_le_mul_right 255 hlen
    _ = 255 * j := Nat.mul_comm _ _

/-- The outer loop writes one value per remaining bucket. -/
theorem outerLoop_length (frame : List ℕ) (b : ℕ) :
    ∀ (n f : ℕ), (outerLoop frame b f n).length = n
  | 0, _ => rfl
  | n + 1, f => by simp [outerLoop, outerLoop_length frame b n (f + b)]

/-- Bucket `i` of the outer loop starts reading at offset `i * b` past the
loop's running index. -/
theorem outerLoop_getElem? (frame : List ℕ) (b : ℕ) :
    ∀ (n i f : ℕ), i < n →
      (outerLoop frame b f n)[i]? =
        some (jsDiv (jsDiv (innerLoop frame (f + i * b) b (some 0)) (some (b : ℚ)))
          (some 255))
  | 0, i, _, h => by omega
  | n + 1, 0, f, _ => by simp [outerLoop]
  | n + 1, i + 1, f, h => by
    simp only [outerLoop, List.getElem?_cons_succ]
    rw [outerLoop_getElem? frame b n i (f + b) (by omega)]
    rw [show f + b + i * b = f + (i + 1) * b from by ring]

/-! ## `getCircleTube` (src/main.js lines 39-58)

```js
function getCircleTube(path_radius=100,path_segments=500, ...){
  const points = [];
  for(let i = 0; i < path_segments; i++){
    const theta = (i/path_segments) * Math.PI/2;
    points.push(new Vector3(path_radius*Math.cos(theta), path_radius*Math.sin(theta),0));
  }
  points.push(points[0])
  const curve = new CatmullRomCurve3(points,true);
  curve.closed = true
  ...
}
```
-/

/-- A three.js `Vector3`, as a triple of reals. -/
abbrev Vec3 := ℝ × ℝ × ℝ

/-- Euclidean distance between two points of `ℝ³`. -/
noncomputable def dist3 (a c : Vec3) : ℝ :=
  Real.sqrt ((a.1 - c.1) ^ 2 + (a.2.1 - c.2.1) ^ 2 + (a.2.2 - c.2.2) ^ 2)

/-- The loop of `getCircleTube`: `path_segments` points on a quarter-circle
arc, point `i` at angle `(i/path_segments) * π/2`, in the z = 0 plane. -/
noncomputable def circlePathPoints (path_radius : ℝ) (path_segments : ℕ) : List Vec3 :=
  (List.range path_segments).map fun i : ℕ =>
    (path_radius * Real.cos (((i : ℕ) : ℝ) / ((path_segments : ℕ) : ℝ) * (Real.pi / 2)),
      path_radius * Real.sin (((i : ℕ) : ℝ) / ((path_segments : ℕ) : ℝ) * (Real.pi / 2)), 0)

/-- `points.push(points[0])`: the closed control sequence handed to
`CatmullRomCurve3`. -/
noncomputable def closedCirclePoints (path_radius : ℝ) (path_segments : ℕ) : List Vec3 :=
  circlePathPoints path_radius path_segments ++
    [(circlePathPoints path_radius path_segments).headI]

/-- Modelled from the spec: three.js's `CatmullRomCurve3` is an external
dependency whose source is not part of this repository; the spec describes it
as fitting a "centripetal (Catmull-Rom-equivalent) interpolating spline
through the closed point sequence, marked closed so evaluation wraps
continuously".  `catmullCoord` is one coordinate of one Catmull-Rom segment
cubic: it interpolates from `p1` (at `s = 0`) to `p2` (at `s = 1`). -/
noncomputable def catmullCoord (p0 p1 p2 p3 s : ℝ) : ℝ :=
  (2 * p1 + (p2 - p0) * s + (2 * p0 - 5 * p1 + 4 * p2 - p3) * s ^ 2 +
    (3 * p1 - p0 - 3 * p2 + p3) * s ^ 3) / 2

/-- One Catmull-Rom segment cubic on points of `ℝ³`, coordinatewise. -/
noncomputable def catmullPoint (P0 P1 P2 P3 : Vec3) (s : ℝ) : Vec3 :=
  (catmullCoord P0.1 P1.1 P2.1 P3.1 s,
    catmullCoord P0.2.1 P1.2.1 P2.2.1 P3.2.1 s,
    catmullCoord P0.2.2 P1.2.2 P2.2.2 P3.2.2 s)

/-- Modelled from the spec: evaluation of the closed interpolating spline
through `pts` at parameter `t` ("marked closed so evaluation wraps
continuously"): parameter scaled by the point count, segment index wrapped
modulo the point count, one Catmull-Rom cubic per segment. -/
noncomputable def pointAt (pts : List Vec3) (t : ℝ) : Vec3 :=
  catmullPoint
    (pts.getD (((⌊(pts.length : ℝ) * t⌋ - 1) % (pts.length : ℤ)).toNat) (0, 0, 0))
    (pts.getD ((⌊(pts.length : ℝ) * t⌋ % (pts.length : ℤ)).toNat) (0, 0, 0))
    (pts.getD (((⌊(pts.length : ℝ) * t⌋ + 1) % (pts.length : ℤ)).toNat) (0, 0, 0))
    (pts.getD (((⌊(pts.length : ℝ) * t⌋ + 2) % (pts.length : ℤ)).toNat) (0, 0, 0))
    ((pts.length : ℝ) * t - (⌊(pts.length : ℝ) * t⌋ : ℤ))

/-- A segment cubic starts at its second control point. -/
theorem catmullCoord_zero (p0 p1 p2 p3 : ℝ) : catmullCoord p0 p1 p2 p3 0 = p1 := by
  unfold catmullCoord
  ring

/-- A segment cubic ends at its third control point. -/
theorem catmullCoord_one (p0 p1 p2 p3 : ℝ) : catmullCoord p0 p1 p2 p3 1 = p2 := by
  unfold catmullCoord
  ring

theorem catmullPoint_zero (P0 P1 P2 P3 : Vec3) : catmullPoint P0 P1 P2 P3 0 = P1 := by
  unfold catmullPoint
  rw [catmullCoord_zero, catmullCoord_zero, catmullCoord_zero]

theorem catmullPoint_one (P0 P1 P2 P3 : Vec3) : catmullPoint P0 P1 P2 P3 1 = P2 := by
  unfold catmullPoint
  rw [catmullCoord_one, catmullCoord_one, catmullCoord_one]

/-- Each coordinate of a segment cubic is continuous in the parameter. -/
theorem catmullCoord_continuous (p0 p1 p2 p3 : ℝ) :
    Continuous fun s => catmullCoord p0 p1 p2 p3 s := by
  unfold catmullCoord
  fun_prop

/-- At `t = 0` the closed spline sits at the first control point. -/
theorem pointAt_zero (pts : List Vec3) (h : 1 ≤ pts.length) :
    pointAt pts 0 = pts.getD 0 (0, 0, 0) := by
  have hn : (0 : ℤ) < (pts.length : ℤ) := by exact_mod_cast h
  unfold pointAt
  rw [mul_zero, Int.floor_zero]
  rw [show ((0 : ℤ) % (pts.length : ℤ)) = 0 from Int.zero_emod _]
  rw [Int.cast_zero, sub_zero, Int.toNat_zero]
  exact catmullPoint_zero _ _ _ _

/-- Near `t = 1`, within the last segment, the closed spline follows the last
segment's cubic, whose third control point wraps around to the first point. -/
theorem pointAt_near_one (pts : List Vec3) (hn : 2 ≤ pts.length) (ε : ℝ) (h0 : 0 < ε)
    (h1 : (pts.length : ℝ) * ε ≤ 1) :
    pointAt pts (1 - ε) =
      catmullPoint (pts.getD (pts.length - 2) (0, 0, 0))
        (pts.getD (pts.length - 1) (0, 0, 0))
        (pts.getD 0 (0, 0, 0))
        (pts.getD 1 (0, 0, 0))
        (1 - (pts.length : ℝ) * ε) := by
  have hm : (2 : ℝ) ≤ (pts.length : ℝ) := by exact_mod_cast hn
  have hmz : (2 : ℤ) ≤ (pts.length : ℤ) := by exact_mod_cast hn
  have hfloor : ⌊(pts.length : ℝ) * (1 - ε)⌋ = (pts.length : ℤ) - 1 := by
    rw [Int.floor_eq_iff]
    constructor
    · push_cast
      nlinarith
    · push_cast
      nlinarith
  unfold pointAt
  rw [hfloor]
  have i1 : ((pts.length : ℤ) - 1 - 1) % (pts.length : ℤ) = (pts.length : ℤ) - 2 := by
    rw [show (pts.length : ℤ) - 1 - 1 = (pts.length : ℤ) - 2 from by ring]
    exact Int.emod_eq_of_lt (by omega) (by omega)
  have i2 : ((pts.length : ℤ) - 1) % (pts.length : ℤ) = (pts.length : ℤ) - 1 :=
    Int.emod_eq_of_lt (by omega) (by omega)
  have i3 : ((pts.length : ℤ) - 1 + 1) % (pts.length : ℤ) = 0 := by
    rw [show (pts.length : ℤ) - 1 + 1 = (pts.length : ℤ) from by ring, Int.emod_self]
  have i4 : ((pts.length : ℤ) - 1 + 2) % (pts.length : ℤ) = 1 := by
    rw [show (pts.length : ℤ) - 1 + 2 = 1 + (pts.length : ℤ) * 1 from by ring,
      Int.add_mul_emod_self_left]
    exact Int.emod_eq_of_lt (by omega) (by omega)
  rw [i1, i2, i3, i4]
  have t1 : ((pts.length : ℤ) - 2).toNat = pts.length - 2 := by omega
  have t2 : ((pts.length : ℤ) - 1).toNat = pts.length - 1 := by omega
  rw [t1, t2, Int.toNat_zero, Int.toNat_one]
  congr 1
  push_cast
  ring

/-- Componentwise closeness gives Euclidean closeness. -/
theorem dist3_lt_of_coords (x y : Vec3) (tol : ℝ) (htol : 0 < tol)
    (h1 : |x.1 - y.1| < tol / 2) (h2 : |x.2.1 - y.2.1| < tol / 2)
    (h3 : |x.2.2 - y.2.2| < tol / 2) : dist3 x y < tol := by
  unfold dist3
  rw [Real.sqrt_lt' htol]
  obtain ⟨h1a, h1b⟩ := abs_lt.mp h1
  obtain ⟨h2a, h2b⟩ := abs_lt.mp h2
  obtain ⟨h3a, h3b⟩ := abs_lt.mp h3
  have e1 : (x.1 - y.1) ^ 2 < (tol / 2) ^ 2 := sq_lt_sq' h1a h1b
  have e2 : (x.2.1 - y.2.1) ^ 2 < (tol / 2) ^ 2 := sq_lt_sq' h2a h2b
  have e3 : (x.2.2 - y.2.2) ^ 2 < (tol / 2) ^ 2 := sq_lt_sq' h3a h3b
  have htol2 : 0 < tol ^ 2 := by positivity
  nlinarith

/-- Seam continuity of the closed spline: for every tolerance there is a
window below `t = 1` on which the spline stays within tolerance of its value
at `t = 0`. -/
theorem pointAt_seam (pts : List Vec3) (hn : 2 ≤ pts.length) (tol : ℝ) (htol : 0 < tol) :
    ∃ δ > 0, ∀ ε : ℝ, 0 < ε → ε < δ →
      dist3 (pointAt pts 0) (pointAt pts (1 - ε)) < tol := by
  have hmpos : (0 : ℝ) < (pts.length : ℝ) := by
    have : 0 < pts.length := by omega
    exact_mod_cast this
  obtain ⟨d1, hd1, hc1⟩ := Metric.continuousAt_iff.mp
    ((catmullCoord_continuous (pts.getD (pts.length - 2) (0, 0, 0)).1
      (pts.getD (pts.length - 1) (0, 0, 0)).1 (pts.getD 0 (0, 0, 0)).1
      (pts.getD 1 (0, 0, 0)).1).continuousAt (x := (1 : ℝ))) (tol / 2) (by positivity)
  obtain ⟨d2, hd2, hc2⟩ := Metric.continuousAt_iff.mp
    ((catmullCoord_continuous (pts.getD (pts.length - 2) (0, 0, 0)).2.1
      (pts.getD (pts.length - 1) (0, 0, 0)).2.1 (pts.getD 0 (0, 0, 0)).2.1
      (pts.getD 1 (0, 0, 0)).2.1).continuousAt (x := (1 : ℝ))) (tol / 2) (by positivity)
  obtain ⟨d3, hd3, hc3⟩ := Metric.continuousAt_iff.mp
    ((catmullCoord_continuous (pts.getD (pts.length - 2) (0, 0, 0)).2.2
      (pts.getD (pts.length - 1) (0, 0, 0)).2.2 (pts.getD 0 (0, 0, 0)).2.2
      (pts.getD 1 (0, 0, 0)).2.2).continuousAt (x := (1 : ℝ))) (tol / 2) (by positivity)
  refine ⟨min (min d1 (min d2 d3) / (pts.length : ℝ)) (1 / (pts.length : ℝ)), ?_, ?_⟩
  · have hmin : 0 < min d1 (min d2 d3) := lt_min hd1 (lt_min hd2 hd3)
    positivity
  · intro ε hε hεδ
    have hmul1 : (pts.length : ℝ) * ε ≤ 1 := by
      have h := lt_of_lt_of_le hεδ (min_le_right _ _)
      rw [lt_div_iff₀ hmpos] at h
      linarith
    have hmulδ : (pts.length : ℝ) * ε < min d1 (min d2 d3) := by
      have h := lt_of_lt_of_le hεδ (min_le_left _ _)
      rw [lt_div_iff₀ hmpos] at h
      linarith
    have hdist : dist (1 - (pts.length : ℝ) * ε) (1 : ℝ) = (pts.length : ℝ) * ε := by
      rw [Real.dist_eq, show (1 : ℝ) - (pts.length : ℝ) * ε - 1 = -((pts.length : ℝ) * ε)
        from by ring, abs_neg, abs_of_pos (by positivity)]
    rw [pointAt_zero pts (by omega), pointAt_near_one pts hn ε hε hmul1]
    have k1 := hc1 (x := 1 - (pts.length : ℝ) * ε)
      (by rw [hdist]; exact lt_of_lt_of_le hmulδ (min_le_left _ _))
    have k2 := hc2 (x := 1 - (pts.length : ℝ) * ε)
      (by
        rw [hdist]
        exact lt_of_lt_of_le hmulδ
          (le_trans (min_le_right d1 (min d2 d3)) (min_le_left d2 d3)))
    have k3 := hc3 (x := 1 - (pts.length : ℝ) * ε)
      (by
        rw [hdist]
        exact lt_of_lt_of_le hmulδ
          (le_trans (min_le_right d1 (min d2 d3)) (min_le_right d2 d3)))
    rw [Real.dist_eq, catmullCoord_one] at k1 k2 k3
    refine dist3_lt_of_coords _ _ tol htol ?_ ?_ ?_
    · rw [abs_sub_comm]
      exact k1
    · rw [abs_sub_comm]
      exact k2
    · rw [abs_sub_comm]
      exact k3

theorem circlePathPoints_length (r : ℝ) (n : ℕ) : (circlePathPoints r n).length = n := by
  unfold circlePathPoints
  rw [List.length_map, List.length_range]

theorem closedCirclePoints_length (r : ℝ) (n : ℕ) :
    (closedCirclePoints r n).length = n + 1 := by
  unfold closedCirclePoints
  rw [List.length_append, circlePathPoints_length, List.length_singleton]

/-- Control point `i` of the quarter-circle arc, for `i < path_segments`. -/
theorem closedCirclePoints_getD (r : ℝ) (n i : ℕ) (hi : i < n) :
    (closedCirclePoints r n).getD i (0, 0, 0) =
      (r * Real.cos (((i : ℝ) / (n : ℝ)) * (Real.pi / 2)),
        r * Real.sin (((i : ℝ) / (n : ℝ)) * (Real.pi / 2)), 0) := by
  have hlen : i < (circlePathPoints r n).length := by
    rw [circlePathPoints_length]
    exact hi
  unfold closedCirclePoints
  rw [List.getD_append _ _ _ _ hlen, List.getD_eq_getElem _ _ hlen]
  unfold circlePathPoints
  rw [List.getElem_map]
  rw [List.getElem_range]

/-- The appended duplicate: the last control point equals the first. -/
theorem closedCirclePoints_closed (r : ℝ) (n : ℕ) (hn : 1 ≤ n) :
    (closedCirclePoints r n).getD n (0, 0, 0) =
      (closedCirclePoints r n).getD 0 (0, 0, 0) := by
  obtain ⟨k, rfl⟩ : ∃ k, n = k + 1 := ⟨n - 1, by omega⟩
  have h0 : (closedCirclePoints r (k + 1)).getD 0 (0, 0, 0) =
      (r * Real.cos 0, r * Real.sin 0, 0) := by
    rw [closedCirclePoints_getD r (k + 1) 0 (by omega)]
    norm_num
  have hhead : (circlePathPoints r (k + 1)).headI = (r * Real.cos 0, r * Real.sin 0, 0) := by
    unfold circlePathPoints
    rw [List.range_succ_eq_map]
    simp
  have hlen : (circlePathPoints r (k + 1)).length = k + 1 := circlePathPoints_length _ _
  have hlast : (closedCirclePoints r (k + 1)).getD (k + 1) (0, 0, 0) =
      (circlePathPoints r (k + 1)).headI := by
    unfold closedCirclePoints
    rw [List.getD_eq_getElem?_getD, List.getElem?_append_right (by omega), hlen]
    simp
  rw [hlast, hhead, h0]

/-- A point of the quarter-circle arc lies at Euclidean distance `r` from
the origin. -/
theorem dist3_circle_point (r θ : ℝ) (hr : 0 ≤ r) :
    dist3 (r * Real.cos θ, r * Real.sin θ, 0) (0, 0, 0) = r := by
  show Real.sqrt ((r * Real.cos θ - 0) ^ 2 + (r * Real.sin θ - 0) ^ 2 + ((0 : ℝ) - 0) ^ 2) = r
  have h : (r * Real.cos θ - 0) ^ 2 + (r * Real.sin θ - 0) ^ 2 + ((0 : ℝ) - 0) ^ 2
      = r ^ 2 * (Real.sin θ ^ 2 + Real.cos θ ^ 2) := by ring
  rw [h, Real.sin_sq_add_cos_sq, mul_one, Real.sqrt_sq hr]

/-! ## Shared bucket evaluation -/

/-- Bucket `i` of `getSimplifiedValues`, when at least one sample feeds each
bucket: the average of the `fftBinsPerBin` consecutive samples starting at
`i * fftBinsPerBin`, divided by 255. -/
theorem simplify_bucket (frame : List ℕ) (N i : ℕ) (hb : 1 ≤ fftBinsPerBin frame N)
    (hi : i < N) :
    (getSimplifiedValues frame N)[i]? =
      some (some ((((frame.drop (i * fftBinsPerBin frame N)).take
          (fftBinsPerBin frame N)).sum : ℚ) / ((fftBinsPerBin frame N : ℕ) : ℚ) / 255)) := by
  have hin : i * fftBinsPerBin frame N + fftBinsPerBin frame N ≤ frame.length := by
    have h1 : i * fftBinsPerBin frame N + fftBinsPerBin frame N
        = (i + 1) * fftBinsPerBin frame N := by ring
    have h2 : (i + 1) * fftBinsPerBin frame N ≤ N * fftBinsPerBin frame N :=
      Nat.mul_le_mul_right _ (by omega)
    have h3 : N * fftBinsPerBin frame N ≤ maxFFTIdx frame.length := by
      unfold fftBinsPerBin
      rw [Nat.mul_comm]
      exact Nat.div_mul_le_self _ _
    have h4 := maxFFTIdx_le frame.length
    omega
  have hbQ : ((fftBinsPerBin frame N : ℕ) : ℚ) ≠ 0 := by
    have h : fftBinsPerBin frame N ≠ 0 := by omega
    exact_mod_cast h
  unfold getSimplifiedValues
  rw [outerLoop_getElem? frame _ N i 0 hi, zero_add,
    innerLoop_eq frame _ (i * fftBinsPerBin frame N) 0 hin, zero_add]
  simp [jsDiv, hbQ, (by norm_num : (255 : ℚ) ≠ 0)]

/-! ## The claims -/

/-- C1 (counterexample): the claim fails as stated.  For the byte frame
`[255, 255]` (L = 2) and output length N = 2 (so N ≥ 1 and L ≥ N hold),
`maxFFTIdx = 1` and `fftBinsPerBin = 0`, every bucket computes `(0/0)/255 =
NaN`, and no written value is a number in [0, 1]. -/
theorem C1_counterexample :
    (∀ x ∈ ([255, 255] : List ℕ), x ≤ 255) ∧ 1 ≤ 2 ∧
      2 ≤ ([255, 255] : List ℕ).length ∧
      ¬ (∀ v ∈ getSimplifiedValues [255, 255] 2, inUnitInterval v) := by
  refine ⟨by decide, by decide, by decide, fun h => ?_⟩
  exact h none (by decide)

/-- C1 (amended): for every byte-valued frame and output length `N` such that
`fftBinsPerBin ≥ 1` (which requires `N ≥ 1` and `⌊maxFFTIdx/N⌋ ≥ 1`; the
claim's `L ≥ N` is not sufficient, see the counterexample),
`getSimplifiedValues` writes exactly `N` values and every written value is a
finite number in the closed interval [0, 1]. -/
theorem C1_simplify_output (frame : List ℕ) (N : ℕ)
    (hbyte : ∀ x ∈ frame, x ≤ 255) (hb : 1 ≤ fftBinsPerBin frame N) :
    (getSimplifiedValues frame N).length = N ∧
      ∀ v ∈ getSimplifiedValues frame N, inUnitInterval v := by
  have hlen : (getSimplifiedValues frame N).length = N := outerLoop_length frame _ N 0
  refine ⟨hlen, fun v hv => ?_⟩
  obtain ⟨i, hilt, hig⟩ := List.getElem_of_mem hv
  have hiN : i < N := by omega
  have hget : (getSimplifiedValues frame N)[i]? = some v :=
    by rw [List.getElem?_eq_getElem hilt, hig]
  rw [simplify_bucket frame N i hb hiN] at hget
  have hveq : v = some ((((frame.drop (i * fftBinsPerBin frame N)).take
      (fftBinsPerBin frame N)).sum : ℚ) / ((fftBinsPerBin frame N : ℕ) : ℚ) / 255) := by
    exact (Option.some_injective _ hget.symm)
  subst hveq
  have hsum_le : ((frame.drop (i * fftBinsPerBin frame N)).take
      (fftBinsPerBin frame N)).sum ≤ 255 * fftBinsPerBin frame N :=
    take_drop_sum_le frame hbyte _ _
  have hbpos : (0 : ℚ) < ((fftBinsPerBin frame N : ℕ) : ℚ) := by
    have h : 0 < fftBinsPerBin frame N := by omega
    exact_mod_cast h
  have hsumQ : (((frame.drop (i * fftBinsPerBin frame N)).take
      (fftBinsPerBin frame N)).sum : ℚ) ≤ 255 * ((fftBinsPerBin frame N : ℕ) : ℚ) := by
    exact_mod_cast hsum_le
  have hsum0 : (0 : ℚ) ≤ (((frame.drop (i * fftBinsPerBin frame N)).take
      (fftBinsPerBin frame N)).sum : ℚ) := by positivity
  show 0 ≤ _ ∧ _ ≤ 1
  constructor
  · positivity
  · rw [div_le_one (by norm_num : (0 : ℚ) < 255), div_le_iff₀ hbpos]
    linarith

/-- C1 (witness). -/
theorem C1_witness :
    (getSimplifiedValues (List.replicate 10 255) 1).length = 1 ∧
      ∀ v ∈ getSimplifiedValues (List.replicate 10 255) 1, inUnitInterval v :=
  C1_simplify_output (List.replicate 10 255) 1
    (fun x hx => by rw [List.eq_of_mem_replicate hx]) (by decide)

/-- C2 (counterexample): the claim fails as stated for odd frame lengths.
For `[1, 1, 1]` (L = 3 ≥ 2, claimed mid = ⌊3/2⌋ = 1, sum = 3) the code's
`mid = 3/2` never equals a loop index, `bassSum` stays `undefined`, and both
`bassAvg` and `trebAvg` are NaN — no finite values satisfy the identity. -/
theorem C2_counterexample :
    2 ≤ ([1, 1, 1] : List ℕ).length ∧
      (getAverageLoudness [1, 1, 1]).bassAvg = none ∧
      (getAverageLoudness [1, 1, 1]).trebAvg = none ∧
      ¬ ∃ b t : ℚ, (getAverageLoudness [1, 1, 1]).bassAvg = some b ∧
          (getAverageLoudness [1, 1, 1]).trebAvg = some t ∧
          b * 1 + t * 1 = (([1, 1, 1] : List ℕ).sum : ℚ) := by
  have hbass : (getAverageLoudness [1, 1, 1]).bassAvg = none := by
    norm_num [getAverageLoudness, loudnessRaw, loudnessLoop, jsDiv, jsSub]
  have htreb : (getAverageLoudness [1, 1, 1]).trebAvg = none := by
    norm_num [getAverageLoudness, loudnessRaw, loudnessLoop, jsDiv, jsSub]
  refine ⟨by decide, hbass, htreb, ?_⟩
  rintro ⟨b, t, hb, -, -⟩
  rw [hbass] at hb
  exact Option.noConfusion hb

/-- C2 (amended): for every frame of even length L ≥ 2 both bass and treble
averages are finite and `bassAvg * mid + trebAvg * mid` equals the loop's
`sum` (the sum of all (nonzero) sample values) exactly, with `mid = L/2`.
(For odd L the code's floating-point `mid = L/2` is not an integer, so
`bassSum` stays undefined and the averages are NaN: see the counterexample.) -/
theorem C2_bass_treb_sum (frame : List ℕ) (hL : 2 ≤ frame.length)
    (heven : frame.length % 2 = 0) :
    ∃ b t : ℚ, (getAverageLoudness frame).bassAvg = some b ∧
      (getAverageLoudness frame).trebAvg = some t ∧
      b * ((frame.length : ℚ) / 2) + t * ((frame.length : ℚ) / 2) = (frame.sum : ℚ) := by
  obtain ⟨m, hm⟩ : ∃ m, frame.length = 2 * m := ⟨frame.length / 2, by omega⟩
  have hmid : ((frame.length : ℚ) / 2) = ((m : ℕ) : ℚ) := by
    rw [hm]
    push_cast
    ring
  have hbsome : (loudnessRaw frame).2.2.isSome := by
    unfold loudnessRaw
    rw [hmid]
    exact loudnessLoop_bass_set m frame 0 (by omega) (by omega) 0 1 none
  obtain ⟨x, hx⟩ := Option.isSome_iff_exists.mp hbsome
  have hsum : (loudnessRaw frame).1 = frame.sum := by
    have h := loudnessLoop_sum ((frame.length : ℚ) / 2) frame 0 0 1 none
    unfold loudnessRaw
    omega
  have hmQ : (((m : ℕ) : ℚ)) ≠ 0 := by
    have h : m ≠ 0 := by omega
    exact_mod_cast h
  refine ⟨(x : ℚ) / ((m : ℕ) : ℚ), ((frame.sum : ℚ) - (x : ℚ)) / ((m : ℕ) : ℚ), ?_, ?_, ?_⟩
  · rw [getAverageLoudness_bassAvg, hx, Option.map_some', hmid, jsDiv, if_neg hmQ]
  · rw [getAverageLoudness_trebAvg, hx, hsum, Option.map_some', hmid, jsSub, jsDiv,
      if_neg hmQ]
  · rw [hmid, div_mul_cancel₀ _ hmQ, div_mul_cancel₀ _ hmQ]
    ring

/-- C2 (witness). -/
theorem C2_witness :
    ∃ b t : ℚ, (getAverageLoudness [3, 5]).bassAvg = some b ∧
      (getAverageLoudness [3, 5]).trebAvg = some t ∧
      b * ((([3, 5] : List ℕ).length : ℚ) / 2) + t * ((([3, 5] : List ℕ).length : ℚ) / 2)
        = (([3, 5] : List ℕ).sum : ℚ) :=
  C2_bass_treb_sum [3, 5] (by decide) (by decide)

/-- C3 (counterexample): the claim fails as stated for odd frame lengths.
For the constant frame `[2, 2, 2]` (L = 3 ≥ 2, v = 2 > 0) the claimed
`bassAverage = v` is false: `bassAvg` is NaN, because the code's
`mid = 3/2` never equals the integer loop index. -/
theorem C3_counterexample :
    2 ≤ ([2, 2, 2] : List ℕ).length ∧ (∀ x ∈ ([2, 2, 2] : List ℕ), x = 2) ∧ 0 < 2 ∧
      (getAverageLoudness [2, 2, 2]).bassAvg = none ∧
      (getAverageLoudness [2, 2, 2]).bassAvg ≠ some (((2 : ℕ) : ℚ)) := by
  have hbass : (getAverageLoudness [2, 2, 2]).bassAvg = none := by
    norm_num [getAverageLoudness, loudnessRaw, loudnessLoop, jsDiv, jsSub]
  refine ⟨by decide, by decide, by decide, hbass, ?_⟩
  rw [hbass]
  exact fun h => Option.noConfusion h

/-- C3 (amended): for every constant frame (all samples `v > 0`, length
L ≥ 2), `average = v`, `activeAverage = v` and `adjustedAverage = 1.5 v`;
when moreover L is even, `bassAverage = trebleAverage = v`.  (For odd L the
bass/treble averages are NaN: see the counterexample.) -/
theorem C3_constant_frame (frame : List ℕ) (v : ℕ) (hL : 2 ≤ frame.length) (hv : 0 < v)
    (hconst : ∀ x ∈ frame, x = v) :
    (getAverageLoudness frame).average = some ((v : ℚ)) ∧
      (getAverageLoudness frame).activeAverage = some ((v : ℚ)) ∧
      (getAverageLoudness frame).adjustedAverage = some (3 * (v : ℚ) / 2) ∧
      (frame.length % 2 = 0 →
        (getAverageLoudness frame).bassAvg = some ((v : ℚ)) ∧
          (getAverageLoudness frame).trebAvg = some ((v : ℚ))) := by
  have hrep : frame = List.replicate frame.length v := List.eq_replicate_of_mem hconst
  have h := getAverageLoudness_const frame.length v hL hv
  rwa [← hrep] at h

/-- C3 (witness). -/
theorem C3_witness :
    (getAverageLoudness [2, 2]).average = some (((2 : ℕ) : ℚ)) ∧
      (getAverageLoudness [2, 2]).activeAverage = some (((2 : ℕ) : ℚ)) ∧
      (getAverageLoudness [2, 2]).adjustedAverage = some (3 * ((2 : ℕ) : ℚ) / 2) ∧
      (([2, 2] : List ℕ).length % 2 = 0 →
        (getAverageLoudness [2, 2]).bassAvg = some (((2 : ℕ) : ℚ)) ∧
          (getAverageLoudness [2, 2]).trebAvg = some (((2 : ℕ) : ℚ))) :=
  C3_constant_frame [2, 2] 2 (by decide) (by decide) (by decide)

/-- C4: an all-zero frame of length ≥ 2 yields `average = activeAverage =
adjustedAverage = 0`; and for every frame whatsoever the guarded
`activeCount` (seeded at 1, decremented only when above 1) stays ≥ 1, so the
division `sum / activeCount` never divides by zero (`activeAverage` is
always a finite value). -/
theorem C4_zero_frame_and_guard :
    (∀ frame : List ℕ, 2 ≤ frame.length → (∀ x ∈ frame, x = 0) →
        (getAverageLoudness frame).average = some 0 ∧
          (getAverageLoudness frame).activeAverage = some 0 ∧
          (getAverageLoudness frame).adjustedAverage = some 0) ∧
      (∀ frame : List ℕ, 1 ≤ activeCount frame ∧
        (getAverageLoudness frame).activeAverage ≠ none) := by
  refine ⟨fun frame hL hz => getAverageLoudness_zero frame hL hz, fun frame => ?_⟩
  exact ⟨one_le_activeCount frame,
    Option.isSome_iff_ne_none.mp (activeAverage_isSome frame)⟩

/-- C4 (witness). -/
theorem C4_witness :
    ((getAverageLoudness [0, 0]).average = some 0 ∧
      (getAverageLoudness [0, 0]).activeAverage = some 0 ∧
      (getAverageLoudness [0, 0]).adjustedAverage = some 0) ∧
      (1 ≤ activeCount [0, 0] ∧ (getAverageLoudness [0, 0]).activeAverage ≠ none) :=
  ⟨C4_zero_frame_and_guard.1 [0, 0] (by decide) (by decide),
    C4_zero_frame_and_guard.2 [0, 0]⟩

/-- The counterexample frame for C5: length 90, the first 62 samples zero,
the remaining 28 equal to 255. -/
def c5Frame : List ℕ := List.replicate 62 0 ++ List.replicate 28 255

/-- C5 (counterexample): the claim's `usable = ⌊0.7 × L⌋` does not match the
code for every L.  At L = 90, `⌊0.7 × 90⌋ = 63` but the binary64 product
`0.7 * 90` is slightly below 63 and `Math.floor` gives 62.  With N = 1 the
code averages the 62 zero samples (value 0), while the claim prescribes the
average of the first 63 samples, which includes a 255 and is nonzero. -/
theorem C5_counterexample :
    c5Frame.length = 90 ∧ 7 * c5Frame.length / 10 = 63 ∧
      maxFFTIdx c5Frame.length = 62 ∧
      getSimplifiedValues c5Frame 1 = [some 0] ∧
      ((((c5Frame.take 63).sum : ℚ) / ((63 : ℕ) : ℚ) / 255) ≠ 0) := by
  have hlen : c5Frame.length = 90 := by
    unfold c5Frame
    rw [List.length_append, List.length_replicate, List.length_replicate]
  have hmax : maxFFTIdx c5Frame.length = 62 := by
    rw [hlen]
    decide
  have hbpb : fftBinsPerBin c5Frame 1 = 62 := by
    unfold fftBinsPerBin
    rw [hmax]
  have htake : (c5Frame.drop 0).take 62 = List.replicate 62 0 := by
    rw [List.drop_zero]
    unfold c5Frame
    rw [List.take_append_of_le_length (by rw [List.length_replicate])]
    rw [List.take_replicate, Nat.min_self]
  have hval := simplify_bucket c5Frame 1 0 (by omega) (by omega)
  rw [hbpb, Nat.zero_mul, htake] at hval
  have hsum0 : (List.replicate 62 (0 : ℕ)).sum = 0 := by
    simp
  rw [hsum0] at hval
  have hout : getSimplifiedValues c5Frame 1 = [some 0] := by
    have hlen1 : (getSimplifiedValues c5Frame 1).length = 1 := outerLoop_length c5Frame _ 1 0
    have h0 : (getSimplifiedValues c5Frame 1)[0]? = some (some 0) := by
      rw [hval]
      norm_num
    cases hgs : getSimplifiedValues c5Frame 1 with
    | nil => rw [hgs] at hlen1; simp at hlen1
    | cons a rest =>
      rw [hgs] at hlen1 h0
      simp at hlen1 h0
      rw [h0, hlen1]
  have htake63 : (c5Frame.take 63).sum = 255 := by
    unfold c5Frame
    rw [List.take_append_eq_append_take, List.take_replicate, List.take_replicate,
      List.length_replicate, List.sum_append, List.sum_replicate, List.sum_replicate]
    norm_num
  refine ⟨hlen, by rw [hlen], hmax, hout, ?_⟩
  rw [htake63]
  norm_num

/-- C5 (amended): with `usable` the binary64 value `Math.floor(0.7 * L)`
(which equals `⌊0.7 L⌋` for the power-of-two lengths the analyser produces,
but can be one less for other lengths — see the counterexample) and
`binsPerBucket = ⌊usable / N⌋ ≥ 1`, bucket `i` is the average of the
`binsPerBucket` consecutive samples starting at index `i * binsPerBucket`,
divided by 255, consuming samples left to right without overlap; for
L = 1024, N = 16: `usable = 716 = ⌊0.7 × 1024⌋`, `binsPerBucket = 44`, and
the first bucket is the average of samples [0, 44) divided by 255. -/
theorem C5_bucket_structure (frame : List ℕ) (N i : ℕ)
    (hb : 1 ≤ fftBinsPerBin frame N) (hi : i < N) :
    (getSimplifiedValues frame N)[i]? =
      some (some ((((frame.drop (i * fftBinsPerBin frame N)).take
          (fftBinsPerBin frame N)).sum : ℚ) / ((fftBinsPerBin frame N : ℕ) : ℚ) / 255)) ∧
      (frame.length = 1024 →
        maxFFTIdx frame.length = 716 ∧ 7 * frame.length / 10 = 716 ∧
          fftBinsPerBin frame 16 = 44 ∧
          (getSimplifiedValues frame 16)[0]? =
            some (some (((frame.take 44).sum : ℚ) / ((44 : ℕ) : ℚ) / 255))) := by
  refine ⟨simplify_bucket frame N i hb hi, fun hlen => ?_⟩
  have hmax : maxFFTIdx frame.length = 716 := by
    rw [hlen]
    decide
  have hbpb : fftBinsPerBin frame 16 = 44 := by
    unfold fftBinsPerBin
    rw [hmax]
  have h0 := simplify_bucket frame 16 0 (by omega) (by omega)
  rw [hbpb, Nat.zero_mul, List.drop_zero] at h0
  exact ⟨hmax, by rw [hlen], hbpb, h0⟩

set_option maxRecDepth 8192 in
/-- C5 (witness). -/
theorem C5_witness :
    (getSimplifiedValues (List.replicate 1024 7) 16)[0]? =
      some (some (((((List.replicate 1024 7 : List ℕ).drop
          (0 * fftBinsPerBin (List.replicate 1024 7) 16)).take
          (fftBinsPerBin (List.replicate 1024 7) 16)).sum : ℚ) /
        ((fftBinsPerBin (List.replicate 1024 7) 16 : ℕ) : ℚ) / 255)) ∧
      ((List.replicate 1024 7 : List ℕ).length = 1024 →
        maxFFTIdx (List.replicate 1024 7 : List ℕ).length = 716 ∧
          7 * (List.replicate 1024 7 : List ℕ).length / 10 = 716 ∧
          fftBinsPerBin (List.replicate 1024 7) 16 = 44 ∧
          (getSimplifiedValues (List.replicate 1024 7) 16)[0]? =
            some (some ((((List.replicate 1024 7 : List ℕ).take 44).sum : ℚ) /
              ((44 : ℕ) : ℚ) / 255))) :=
  C5_bucket_structure (List.replicate 1024 7) 16 0 (by decide) (by decide)

/-- C6: on every tick the bloom strength is `(adjustedAverage / 255) × 150`;
for a frame of 1024 bins all equal to 128, `adjustedAverage = 192` and
`bloomStrength = (192/255) × 150 = 1920/17 ≈ 112.9`. -/
theorem C6_bloom_strength :
    (∀ (frame : List ℕ) (a : ℚ),
        (getAverageLoudness frame).adjustedAverage = some a →
          bloomStrength frame = some (a / 255 * 150)) ∧
      (∀ frame : List ℕ, frame.length = 1024 → (∀ x ∈ frame, x = 128) →
        (getAverageLoudness frame).adjustedAverage = some 192 ∧
          bloomStrength frame = some (1920 / 17) ∧
          |(1920 / 17 : ℚ) - 1129 / 10| < 1 / 10) := by
  constructor
  · intro frame a ha
    unfold bloomStrength
    rw [ha, jsDiv, if_neg (by norm_num : (255 : ℚ) ≠ 0), jsMul]
  · intro frame hlen hconst
    have hrep : frame = List.replicate 1024 128 := by
      rw [← hlen]
      exact List.eq_replicate_of_mem hconst
    rw [hrep]
    have h := getAverageLoudness_const 1024 128 (by norm_num) (by norm_num)
    have hadj : (getAverageLoudness (List.replicate 1024 128)).adjustedAverage
        = some 192 := by
      have h3 := h.2.2.1
      norm_num at h3
      exact h3
    refine ⟨hadj, ?_, ?_⟩
    swap
    · rw [show (1920 / 17 : ℚ) - 1129 / 10 = 7 / 170 from by norm_num,
        abs_of_nonneg (by norm_num : (0 : ℚ) ≤ 7 / 170)]
      norm_num
    unfold bloomStrength
    rw [hadj, jsDiv, if_neg (by norm_num : (255 : ℚ) ≠ 0), jsMul]
    norm_num

/-- C6 (witness). -/
theorem C6_witness :
    ((getAverageLoudness (List.replicate 1024 128)).adjustedAverage = some 192 ∧
      bloomStrength (List.replicate 1024 128) = some (1920 / 17) ∧
      |(1920 / 17 : ℚ) - 1129 / 10| < 1 / 10) ∧
      bloomStrength (List.replicate 1024 128) = some ((192 : ℚ) / 255 * 150) :=
  ⟨C6_bloom_strength.2 (List.replicate 1024 128) (List.length_replicate 1024 128)
      (fun _ hx => List.eq_of_mem_replicate hx),
    C6_bloom_strength.1 (List.replicate 1024 128) 192
      (C6_bloom_strength.2 (List.replicate 1024 128) (List.length_replicate 1024 128)
        (fun _ hx => List.eq_of_mem_replicate hx)).1⟩

/-- C7: the per-tick update of `tubeTick` increments by 1 and resets to 144
exactly when the result exceeds 1000; `tickStep` never leaves a value above
1000 (so from the initial 65 every reachable state stays ≤ 1000), and a tick
at the upper bound 1000 lands exactly on the wrap floor 144. -/
theorem C7_tick_wrap :
    (∀ t : ℕ, tickStep t ≤ 1000) ∧
      (∀ k : ℕ, tickStep^[k] tubeTickInit ≤ 1000) ∧
      tickStep 1000 = 144 ∧
      (∀ t : ℕ, 1000 < t + 1 → tickStep t = 144) ∧
      (∀ t : ℕ, t + 1 ≤ 1000 → tickStep t = t + 1) := by
  have hstep : ∀ t : ℕ, tickStep t ≤ 1000 := by
    intro t
    unfold tickStep
    split <;> omega
  refine ⟨hstep, ?_, by decide, ?_, ?_⟩
  · intro k
    induction k with
    | zero => decide
    | succ k _ =>
      rw [Function.iterate_succ_apply']
      exact hstep _
  · intro t ht
    unfold tickStep
    rw [if_pos ht]
  · intro t ht
    unfold tickStep
    rw [if_neg (by omega)]

/-- C7 (witness). -/
theorem C7_witness : tickStep 1200 = 144 ∧ tickStep 999 = 1000 :=
  ⟨C7_tick_wrap.2.2.2.1 1200 (by decide), C7_tick_wrap.2.2.2.2 999 (by decide)⟩

/-- C8: `getCircleTube`'s path construction samples `path_segments` points on
the quarter-circle arc at angles `θ = (i/path_segments)·(π/2)`, each at
Euclidean distance `radius` from the origin in the z = 0 plane, appends a
duplicate of the first point to close the sequence, and the closed
interpolating spline through those points satisfies
`|pointAt(0) − pointAt(1 − ε)| < tolerance` for every tolerance and all
small enough `ε` (closed-loop continuity). -/
theorem C8_circle_path (r : ℝ) (n : ℕ) (hr : 0 ≤ r) (hn : 1 ≤ n) :
    (closedCirclePoints r n).length = n + 1 ∧
      (∀ i : ℕ, i < n →
        (closedCirclePoints r n).getD i (0, 0, 0) =
          (r * Real.cos (((i : ℕ) : ℝ) / ((n : ℕ) : ℝ) * (Real.pi / 2)),
            r * Real.sin (((i : ℕ) : ℝ) / ((n : ℕ) : ℝ) * (Real.pi / 2)), 0) ∧
          dist3 ((closedCirclePoints r n).getD i (0, 0, 0)) (0, 0, 0) = r) ∧
      (closedCirclePoints r n).getD n (0, 0, 0) =
        (closedCirclePoints r n).getD 0 (0, 0, 0) ∧
      (∀ tol : ℝ, 0 < tol → ∃ δ > 0, ∀ ε : ℝ, 0 < ε → ε < δ →
        dist3 (pointAt (closedCirclePoints r n) 0)
          (pointAt (closedCirclePoints r n) (1 - ε)) < tol) := by
  refine ⟨closedCirclePoints_length r n, ?_, closedCirclePoints_closed r n hn, ?_⟩
  · intro i hi
    refine ⟨closedCirclePoints_getD r n i hi, ?_⟩
    rw [closedCirclePoints_getD r n i hi]
    exact dist3_circle_point r _ hr
  · intro tol htol
    exact pointAt_seam (closedCirclePoints r n) (by rw [closedCirclePoints_length]; omega)
      tol htol

/-- C8 (witness): the source's call `getCircleTube(100, 500)`. -/
theorem C8_witness : (closedCirclePoints 100 500).length = 500 + 1 :=
  (C8_circle_path 100 500 (by norm_num) (by norm_num)).1

/-- C9: when capture is denied (or no device is present), `getMicrophone`
resolves `null` after logging exactly one warning (and one error),
`AudioEnvironment.use` makes exactly one `getUserMedia` request (no retry)
and propagates the `null`, and `initializeVisualizer` logs a final error and
returns without constructing the scene or the animate loop. -/
theorem C9_capture_denied :
    getMicrophone none = (none, [LogEvent.warn, LogEvent.error]) ∧
      AudioEnvironment.use none none = (none, [LogEvent.warn, LogEvent.error], 1) ∧
      initializeVisualizer none =
        (none, [LogEvent.warn, LogEvent.error, LogEvent.error], 1) ∧
      (initializeVisualizer none).1 = none ∧
      ((initializeVisualizer none).2.1.count LogEvent.warn = 1) ∧
      (initializeVisualizer none).2.2 = 1 := by
  decide

/-- The tick value stays inside `[65, 1000]` from the initial 65 on. -/
theorem reach_bounds (k : ℕ) :
    65 ≤ tickStep^[k] tubeTickInit ∧ tickStep^[k] tubeTickInit ≤ 1000 := by
  induction k with
  | zero => decide
  | succ k ih =>
    rw [Function.iterate_succ_apply']
    generalize hx : tickStep^[k] tubeTickInit = x at ih
    unfold tickStep
    split <;> omega

/-- For `t ≤ 1000` the modulo in `updateCamera` is the identity and the
parameter is simply `t / 10000`. -/
theorem cameraP_eq (t : ℕ) (ht : t ≤ 1000) : cameraP t = (t : ℚ) / 10000 := by
  unfold cameraP jsMod LOOP_TIME
  have htQ : (t : ℚ) ≤ 1000 := by exact_mod_cast ht
  have ht0 : (0 : ℚ) ≤ (t : ℚ) := by positivity
  have hfloor : ⌊((t : ℚ) * (1 / 2)) / (((5000 : ℕ) : ℚ))⌋ = 0 := by
    rw [Int.floor_eq_zero_iff]
    constructor
    · push_cast
      positivity
    · push_cast
      rw [div_lt_one (by norm_num : (0 : ℚ) < 5000)]
      linarith
  rw [hfloor]
  push_cast
  ring

/-- C10: in every reachable tick state (`tubeTick` starts at 65, increments
by 1, wraps from above 1000 to 144), the camera parameter
`p = ((tubeTick × 0.5) mod 5000) / 5000` lies in `[0.0065, 0.1]` and the
lookahead `p + 0.03` lies in `[0.0365, 0.13]`; both arguments handed to
`path.getPointAt` are therefore within `[0, 1]`, and the camera only ever
traverses the first 13% of the closed curve. -/
theorem C10_camera_bounds (k : ℕ) :
    13 / 2000 ≤ cameraP (tickStep^[k] tubeTickInit) ∧
      cameraP (tickStep^[k] tubeTickInit) ≤ 1 / 10 ∧
      73 / 2000 ≤ cameraNext (tickStep^[k] tubeTickInit) ∧
      cameraNext (tickStep^[k] tubeTickInit) ≤ 13 / 100 ∧
      0 ≤ cameraP (tickStep^[k] tubeTickInit) ∧
      cameraP (tickStep^[k] tubeTickInit) ≤ 1 ∧
      0 ≤ cameraNext (tickStep^[k] tubeTickInit) ∧
      cameraNext (tickStep^[k] tubeTickInit) ≤ 1 := by
  obtain ⟨h65, h1000⟩ := reach_bounds k
  have hp := cameraP_eq _ h1000
  have hlo : (65 : ℚ) ≤ ((tickStep^[k] tubeTickInit : ℕ) : ℚ) := by exact_mod_cast h65
  have hhi : ((tickStep^[k] tubeTickInit : ℕ) : ℚ) ≤ 1000 := by exact_mod_cast h1000
  unfold cameraNext
  rw [hp]
  refine ⟨by linarith, by linarith, by linarith, by linarith, by linarith, by linarith,
    by linarith, by linarith⟩
